import Mathlib

/-!
Shallow embedding of `irl_methods/linear_programming.py` (Linear Programming
IRL methods of Ng and Russell, 2000): the three LP formulators
(`linear_programming`, `large_linear_programming`,
`trajectory_linear_programming`) and their constraint-generation blocks.

Conventions of the embedding:
* numpy float vectors and matrices are embedded over `ℚ`; a numpy 2-d array
  carries its column count explicitly (`Mat.w`), mirroring `arr.shape[1]`,
  so that `[0] * A_ub.shape[1]` is expressible even when the matrix has no
  rows yet;
* float division is embedded by `fdiv`, which produces `FVal.nan` on a zero
  divisor (numpy emits `nan` for `0.0 / 0.0` rather than raising);
* the external LP solver (`cvxopt.solvers.lp`) is a collaborator: its result
  is a status plus an optional solution vector (`res['x']` is `None` when
  cvxopt could not produce an iterate), and the post-solve code of each
  formulator is embedded as a function of that result;
* Python dynamic values appearing in the buggy start-state check are
  embedded by `Py`, with subscription on an `int` producing a `TypeError`.
-/

namespace IrlLp

/-- Dot product of two rational vectors, truncating at the shorter list
(the embedding only uses it on equal-length rows/assignments). -/
def dot : List ℚ → List ℚ → ℚ
  | a :: as, b :: bs => a * b + dot as bs
  | _, _ => 0

/-- Pointwise sum of two vectors (numpy `+` on equal-length arrays). -/
def vadd : List ℚ → List ℚ → List ℚ := List.zipWith (· + ·)

/-- Pointwise difference of two vectors (numpy `-` on equal-length arrays). -/
def vsub : List ℚ → List ℚ → List ℚ := List.zipWith (· - ·)

/-- Sum of squares of a vector: the square of `np.linalg.norm`.
`np.linalg.norm v <= tol` is embedded as `sumSq v ≤ tol ^ 2` (equivalent
for `tol ≥ 0`, and the configuration requires `tol > 0`). -/
def sumSq (v : List ℚ) : ℚ := (v.map (fun x => x * x)).sum

/-- A numpy 2-d float array: explicit column count `w` plus the rows.
`w` mirrors `arr.shape[1]`, which numpy tracks even for 0-row arrays. -/
structure Mat where
  w : ℕ
  rows : List (List ℚ)
deriving DecidableEq

/-- `np.hstack((A, np.zeros((A.shape[0], k))))`: append `k` zero columns. -/
def Mat.hstackZeros (A : Mat) (k : ℕ) : Mat :=
  ⟨A.w + k, A.rows.map (fun r => r ++ List.replicate k 0)⟩

/-- `np.vstack((A, rows))`: append rows below (numpy requires the new rows
to have width `A.shape[1]`; theorems carry that as a hypothesis). -/
def Mat.vstack (A : Mat) (rs : List (List ℚ)) : Mat :=
  ⟨A.w, A.rows ++ rs⟩

/-- An LP instance under construction: the accumulating triple
`(c, A_ub, b_ub)` that every constraint block takes and returns. -/
structure LP where
  c : List ℚ
  A : Mat
  b : List ℚ
deriving DecidableEq

/-- The LPProblem invariant: `columns(A) == len(c)` (with all rows of `A`
actually having that width) and `rows(A) == len(b)`. -/
def LPInv (P : LP) : Prop :=
  P.A.w = P.c.length ∧ (∀ r ∈ P.A.rows, r.length = P.A.w) ∧
    P.A.rows.length = P.b.length

instance (P : LP) : Decidable (LPInv P) := by
  unfold LPInv; infer_instance

/-- Whether an assignment `v` satisfies each constraint row:
`dot row v ≤ bound`, rows and bounds walked in parallel. -/
def satRows : List (List ℚ) → List ℚ → List ℚ → Prop
  | r :: rs, bb :: bs, v => dot r v ≤ bb ∧ satRows rs bs v
  | _, _, _ => True

instance (rs : List (List ℚ)) (bs v : List ℚ) : Decidable (satRows rs bs v) := by
  induction rs generalizing bs with
  | nil => exact isTrue trivial
  | cons r rs ih =>
    cases bs with
    | nil => exact isTrue trivial
    | cons bb bs => exact @instDecidableAnd _ _ _ (ih bs)

/-! ## Tabular formulator blocks (`linear_programming`, lines 88–199)

`n` is the state count, `k` the action count, `T s a t` the transition
tensor `sorted_transition_tensor[s, a, t]`, and `M t s2` the precomputed
matrix `_T_disc_inv = inv(I - discount * T[:, 0, :])` (computed once by
`np.linalg.inv` and consumed opaquely by the blocks, so the embedding
takes it as a parameter). -/

/-- Row `s` of `-1 * (T[:, 0, :] - T[:, i, :]) @ _T_disc_inv`. -/
def policyRow (n : ℕ) (T : ℕ → ℕ → ℕ → ℚ) (M : ℕ → ℕ → ℚ) (i s : ℕ) : List ℚ :=
  (List.range n).map (fun s2 =>
    -(((List.range n).map (fun t => (T s 0 t - T s i t) * M t s2)).sum))

/-- The `n` constraint rows generated for alternative `i` by
`add_optimal_policy_constraints`. -/
def policyRows (n : ℕ) (T : ℕ → ℕ → ℕ → ℚ) (M : ℕ → ℕ → ℚ) (i : ℕ) :
    List (List ℚ) :=
  (List.range n).map (policyRow n T M i)

/-- Loop body of `add_optimal_policy_constraints`. -/
def aopcStep (n : ℕ) (T : ℕ → ℕ → ℕ → ℚ) (M : ℕ → ℕ → ℚ) (Q : LP) (i : ℕ) : LP :=
  ⟨Q.c, Q.A.vstack (policyRows n T M i), Q.b ++ List.replicate n 0⟩

/-- `add_optimal_policy_constraints` (lines 88–104): for each of the `k-1`
loop indices, stack the `n` dominance rows onto `A_ub` with zero bounds. -/
def add_optimal_policy_constraints (n k : ℕ) (T : ℕ → ℕ → ℕ → ℚ)
    (M : ℕ → ℕ → ℚ) (P : LP) : LP :=
  (List.range (k - 1)).foldl (aopcStep n T M) P

/-- Row `s` of `np.identity(n)`. -/
def idRow (n s : ℕ) : List ℚ :=
  (List.range n).map (fun j => if j = s then (1 : ℚ) else 0)

/-- One costly-single-step constraint row: dominance row, width padding to
`css_offset`, then the `min{}` operator identity entry. -/
def cssRow (n : ℕ) (T : ℕ → ℕ → ℕ → ℚ) (M : ℕ → ℕ → ℚ)
    (cssOff i s : ℕ) : List ℚ :=
  policyRow n T M i s ++ List.replicate (cssOff - n) 0 ++ idRow n s

/-- The `n` rows added for loop index `i` by
`add_costly_single_step_constraints`. -/
def cssRows (n : ℕ) (T : ℕ → ℕ → ℕ → ℚ) (M : ℕ → ℕ → ℚ)
    (cssOff i : ℕ) : List (List ℚ) :=
  (List.range n).map (cssRow n T M cssOff i)

/-- Loop body of `add_costly_single_step_constraints`. -/
def cssStep (n : ℕ) (T : ℕ → ℕ → ℕ → ℚ) (M : ℕ → ℕ → ℚ) (cssOff : ℕ)
    (Q : LP) (i : ℕ) : LP :=
  ⟨Q.c, Q.A.vstack (cssRows n T M cssOff i), Q.b ++ List.replicate n 0⟩

/-- `add_costly_single_step_constraints` (lines 106–139): append `n`
helper variables with objective weight `-1`, widen `A_ub` by `n` zero
columns, then for each of the `k-1` loop indices stack `n` rows with zero
bounds. -/
def add_costly_single_step_constraints (n k : ℕ) (T : ℕ → ℕ → ℕ → ℚ)
    (M : ℕ → ℕ → ℚ) (P : LP) : LP :=
  let c1 := P.c ++ List.replicate n (-1 : ℚ)
  let cssOff := c1.length - n
  let A1 := P.A.hstackZeros n
  (List.range (k - 1)).foldl (cssStep n T M cssOff) ⟨c1, A1, P.b⟩

/-- Loop body of `add_rmax_constraints`. -/
def rmaxStep (rmax : ℚ) (Q : LP) (i : ℕ) : LP :=
  ⟨Q.c, Q.A.vstack [(List.replicate Q.A.w (0 : ℚ)).set i 1], Q.b ++ [rmax]⟩

/-- `add_rmax_constraints` (lines 183–193): for each true variable `i`, one
row `x_i ≤ r_max`. -/
def add_rmax_constraints (n : ℕ) (rmax : ℚ) (P : LP) : LP :=
  (List.range n).foldl (rmaxStep rmax) P

/-- Loop body of `add_l1norm_constraints`: for true variable `i` the two
rows `-x_i ≤ 0` and `x_i - aux_i ≤ 0` (aux sits at column `l1off + i`). -/
def l1Step (l1off : ℕ) (Q : LP) (i : ℕ) : LP :=
  let A2 := Q.A.vstack [(List.replicate Q.A.w (0 : ℚ)).set i (-1)]
  let b2 := Q.b ++ [0]
  ⟨Q.c,
    A2.vstack [((List.replicate A2.w (0 : ℚ)).set i 1).set (l1off + i) (-1)],
    b2 ++ [0]⟩

/-- `add_l1norm_constraints` (lines 141–181): append `n` auxiliary
variables with objective weight `l1`, widen `A_ub` by `n` zero columns,
then run the per-true-variable loop `l1Step`. -/
def add_l1norm_constraints (n : ℕ) (l1 : ℚ) (P : LP) : LP :=
  let c1 := P.c ++ List.replicate n l1
  let l1off := c1.length - n
  let A1 := P.A.hstackZeros n
  (List.range n).foldl (l1Step l1off) ⟨c1, A1, P.b⟩

/-! ## Sampled (large state space) formulator (`large_linear_programming`,
lines 231–446)

The sampling transition function is called afresh on each Monte Carlo
draw; the embedding passes the draw index explicitly
(`otf i s a` = the `i`-th sample of `ordered_transition_function(s, a)`),
and `bvf s` is `basis_value_fn(s)`. -/

/-- Entry `(f, a)` of the Monte-Carlo action-value-expectation matrix
`a_ve` after averaging over `nts` draws. -/
def a_ve (nts : ℕ) (bvf : St → List ℚ) (otf : ℕ → St → ℕ → St)
    (s : St) (f a : ℕ) : ℚ :=
  (((List.range nts).map (fun i => (bvf (otf i s a)).getD f 0)).sum) / (nts : ℚ)

/-- Row `j` of `a_ve_diff.T`: the length-`nbf` vector of differences
between the expert action's value expectation and that of action `j+1`. -/
def aveDiffRow (nts nbf : ℕ) (bvf : St → List ℚ) (otf : ℕ → St → ℕ → St)
    (s : St) (j : ℕ) : List ℚ :=
  (List.range nbf).map (fun f =>
    a_ve nts bvf otf s f 0 - a_ve nts bvf otf s f (j + 1))

/-- The helper-variable coupling block `tmp`: `-1` at sampled-state index
`si` inside the width-`m` helper column block. -/
def tmpRow (m si : ℕ) : List ℚ := (List.replicate m (0 : ℚ)).set si (-1)

/-- The two row blocks contributed by sampled state `s` (index `si`):
unpenalized margins and `penalty_coefficient`-scaled margins, `k-1` rows
each. -/
def llp_css_state_rows (nts nbf k m : ℕ) (bvf : St → List ℚ)
    (otf : ℕ → St → ℕ → St) (pc : ℚ) (si : ℕ) (s : St) :
    List (List ℚ) × List (List ℚ) :=
  ((List.range (k - 1)).map (fun j => aveDiffRow nts nbf bvf otf s j ++ tmpRow m si),
   (List.range (k - 1)).map (fun j =>
     (aveDiffRow nts nbf bvf otf s j).map (fun q => pc * q) ++ tmpRow m si))

/-- Loop body of the sampled-formulator costly-single-step block: the two
`(k-1)`-row blocks contributed by one enumerated sampled state, with zero
bounds. -/
def llpCssStep (nts nbf k m : ℕ) (bvf : St → List ℚ)
    (otf : ℕ → St → ℕ → St) (pc : ℚ) (Q : LP) (p : ℕ × St) : LP :=
  let rs := llp_css_state_rows nts nbf k m bvf otf pc p.1 p.2
  ⟨Q.c, (Q.A.vstack rs.1).vstack rs.2,
    (Q.b ++ List.replicate (k - 1) 0) ++ List.replicate (k - 1) 0⟩

/-- `add_costly_single_step_constraints` of `large_linear_programming`
(lines 309–386) proper: append the helper variables and run the per-state
loop over the enumerated sample. -/
def llp_add_css (sample : List St) (k nts nbf : ℕ) (bvf : St → List ℚ)
    (otf : ℕ → St → ℕ → St) (pc : ℚ) (P : LP) : LP :=
  let m := sample.length
  let c1 := P.c ++ List.replicate m (-1 : ℚ)
  let A1 := P.A.hstackZeros m
  sample.enum.foldl (llpCssStep nts nbf k m bvf otf pc) ⟨c1, A1, P.b⟩

/-- Loop body of `add_alpha_size_constraints`: for true variable `i`, the
rows `x_i ≤ 1` and `-x_i ≤ 1`. -/
def alphaStep (Q : LP) (i : ℕ) : LP :=
  let A2 := Q.A.vstack [(List.replicate Q.A.w (0 : ℚ)).set i 1]
  let b2 := Q.b ++ [1]
  ⟨Q.c, A2.vstack [(List.replicate A2.w (0 : ℚ)).set i (-1)], b2 ++ [1]⟩

/-- `add_alpha_size_constraints` (lines 388–417 and 673–691, identical
bodies): per true variable `i`, the rows `x_i ≤ 1` and `-x_i ≤ 1`. -/
def add_alpha_size_constraints (q : ℕ) (P : LP) : LP :=
  (List.range q).foldl alphaStep P

/-- `num_basis_functions = len(basis_value_fn(state_sample[0]))`
(line 288; indexing an empty sample raises in Python, embedded as 0). -/
def llp_num_basis (sample : List St) (bvf : St → List ℚ) : ℕ :=
  match sample with
  | [] => 0
  | s :: _ => (bvf s).length

/-- The full LP instance composed by `large_linear_programming`
(lines 419–426): start from the width-`d` empty triple, apply the
costly-single-step block then the alpha-size block. -/
def large_linear_programming_problem (sample : List St) (k nts : ℕ)
    (bvf : St → List ℚ) (otf : ℕ → St → ℕ → St) (pc : ℚ) : LP :=
  let nbf := llp_num_basis sample bvf
  add_alpha_size_constraints nbf
    (llp_add_css sample k nts nbf bvf otf pc ⟨List.replicate nbf 0, ⟨nbf, []⟩, []⟩)

/-! ## Trajectory formulator (`trajectory_linear_programming`,
lines 449–754) -/

/-- Row `j` of `-1 * np.identity(k)`. -/
def negIdRow (k j : ℕ) : List ℚ := (List.replicate k (0 : ℚ)).set j (-1)

/-- `add_optimal_expert_constraints` (lines 632–671): rebuild the
objective as `[zeros(d), ones(k)]` (`k` = number of known non-expert
policies), widen `A_ub` by `k` columns, then stack the unpenalized and
`p`-scaled comparison blocks of `k` rows each with zero bounds.
`evv` is `expert_value_vector`, `vvecs` the rows of
`non_expert_policy_value_vectors`. -/
def add_optimal_expert_constraints (d : ℕ) (p : ℚ) (evv : List ℚ)
    (vvecs : List (List ℚ)) (P : LP) : LP :=
  let k := vvecs.length
  let c1 := List.replicate d (0 : ℚ) ++ List.replicate k 1
  let A1 := P.A.hstackZeros k
  let rows1 := vvecs.enum.map (fun q => vsub evv q.2 ++ negIdRow k q.1)
  let A2 := A1.vstack rows1
  let b2 := P.b ++ List.replicate k 0
  let rows2 := vvecs.enum.map (fun q =>
    (vsub evv q.2).map (fun x => p * x) ++ negIdRow k q.1)
  ⟨c1, A2.vstack rows2, b2 ++ List.replicate k 0⟩

/-! ## Solver collaborator and post-solve extraction -/

/-- cvxopt solver statuses. -/
inductive SolStatus
  | optimal
  | primalInfeasible
  | dualInfeasible
  | unknown
deriving DecidableEq

/-- A solver result: status plus `res['x']`, which is `None` when cvxopt
could not produce an iterate. -/
structure LPResult where
  status : SolStatus
  x : Option (List ℚ)
deriving DecidableEq

/-- Python runtime error kinds reachable in the embedded fragments. -/
inductive PyError
  | typeError
  | indexError
deriving DecidableEq

/-- A float value: a rational, or `nan`. -/
inductive FVal
  | rat (q : ℚ)
  | nan
deriving DecidableEq

/-- Float division: numpy-style, `0.0/0.0` (the only zero-divisor case the
formulator can reach, since then the numerator is `min - min`) gives
`nan` with a warning rather than raising. -/
def fdiv (a b : ℚ) : FVal := if b = 0 then FVal.nan else FVal.rat (a / b)

/-- Scalar times float: `nan` propagates. -/
def fscale (r : ℚ) : FVal → FVal
  | FVal.rat q => FVal.rat (r * q)
  | FVal.nan => FVal.nan

/-- `np.min` of a nonempty vector (the `[]` case is junk; numpy raises). -/
def npMin : List ℚ → ℚ
  | [] => 0
  | a :: as => as.foldl min a

/-- `np.max` of a nonempty vector (the `[]` case is junk; numpy raises). -/
def npMax : List ℚ → ℚ
  | [] => 0
  | a :: as => as.foldl max a

/-- The `normalize` helper of `linear_programming` (lines 217–223):
`(vals - min) / (max - min)`, with no guard on `max == min`. -/
def normalize (vals : List ℚ) : List FVal :=
  vals.map (fun v => fdiv (v - npMin vals) (npMax vals - npMin vals))

/-- The post-solve tail of `linear_programming` (lines 212–228): slice the
first `n` coordinates of `res['x']` (a `TypeError` if `x` is `None`),
min–max normalize, scale by `r_max`, and return the rewards together with
the raw solver result. No inspection of `res['status']` occurs. -/
def lp_extract_rewards (n : ℕ) (rmax : ℚ) (res : LPResult) :
    Except PyError (List FVal × LPResult) :=
  match res.x with
  | none => Except.error PyError.typeError
  | some xs => Except.ok ((normalize (xs.take n)).map (fscale rmax), res)

/-- The post-solve tail of `large_linear_programming` (lines 438–446):
slice the first `d` coordinates of `res['x']` and return them with the raw
result. No inspection of `res['status']` occurs. -/
def llp_extract (d : ℕ) (res : LPResult) :
    Except PyError (List ℚ × LPResult) :=
  match res.x with
  | none => Except.error PyError.typeError
  | some xs => Except.ok (xs.take d, res)

/-- The per-iteration extraction `alpha_new = res['x'][0:d].T` of
`trajectory_linear_programming` (line 720). No status inspection. -/
def tlp_extract (d : ℕ) (res : LPResult) : Except PyError (List ℚ) :=
  match res.x with
  | none => Except.error PyError.typeError
  | some xs => Except.ok (xs.take d)

/-- The outer `while True` loop of `trajectory_linear_programming`
(lines 693–754), abstracted over the per-iteration LP solutions (the list
`sols` supplies the successive `alpha_new` vectors; `none` means the
modeled solver responses ran out before convergence, i.e. the loop is
still running). On `‖alpha - alpha_new‖ ≤ tol` the loop breaks *before*
the `alpha = alpha_new` update and the function returns the pair
`(alpha, result)` where the local `result` variable is initialized to
`None` (line 694) and never assigned. -/
def tlp_loop (tol : ℚ) : List ℚ → List (List ℚ) →
    Option (List ℚ × Option LPResult)
  | _, [] => none
  | alpha, aNew :: rest =>
    if sumSq (vsub alpha aNew) ≤ tol ^ 2 then some (alpha, none)
    else tlp_loop tol aNew rest

/-! ## The start-state consistency check (lines 501–510)

The Python loop is
`for demonstration in range(len(zeta) - 1): if demonstration[0] != start_state: warn; break`
— it subscripts `demonstration`, the loop *index*, an `int`. -/

/-- A Python dynamic value: an int, or a (state, action) pair. -/
inductive Py
  | int (n : ℤ)
  | pair (a b : Py)
deriving DecidableEq

/-- Python subscription `v[i]`: ints are not subscriptable. -/
def pySub : Py → ℕ → Except PyError Py
  | Py.int _, _ => Except.error PyError.typeError
  | Py.pair a _, 0 => Except.ok a
  | Py.pair _ b, 1 => Except.ok b
  | Py.pair _ _, _ => Except.error PyError.indexError

/-- Python list indexing `l[i]`. -/
def listGet (l : List α) (i : ℕ) : Except PyError α :=
  match l.get? i with
  | some v => Except.ok v
  | none => Except.error PyError.indexError

/-- The body of the consistency loop: walk the indices produced by
`range(len(zeta) - 1)`, subscripting each loop-index int; the `Bool`
records whether the inconsistency warning fired before the loop broke. -/
def start_check_loop (s0 : Py) : List ℕ → Except PyError Bool
  | [] => Except.ok false
  | dm :: rest =>
    match pySub (Py.int dm) 0 with
    | Except.error e => Except.error e
    | Except.ok v => if v = s0 then start_check_loop s0 rest else Except.ok true

/-- Lines 501–510: `start_state = zeta[0][0][0]` followed by the
consistency loop; returns the start state and the warning flag if no
exception escapes. -/
def tlp_start_check (zeta : List (List Py)) : Except PyError (Py × Bool) := do
  let t0 ← listGet zeta 0
  let p0 ← listGet t0 0
  let s0 ← pySub p0 0
  let wrn ← start_check_loop s0 (List.range (zeta.length - 1))
  pure (s0, wrn)

/-! ## Empirical policy value (`emperical_policy_value`, lines 573–608) -/

/-- The inner accumulation loop of `emperical_trajectory_value`: starting
at power `j`, add `gamma ** j * phi_i(trajectory[j][0])` for each step. -/
def traj_value_i (phii : St → ℚ) (gamma : ℚ) : List (St × Ac) → ℕ → ℚ
  | [], _ => 0
  | sa :: rest, j => gamma ^ j * phii sa.1 + traj_value_i phii gamma rest (j + 1)

/-- `emperical_trajectory_value` (lines 584–601): the length-`d` vector of
discounted basis sums along one trajectory. -/
def emperical_trajectory_value (phi : List (St → ℚ)) (gamma : ℚ)
    (traj : List (St × Ac)) : List ℚ :=
  phi.map (fun phii => traj_value_i phii gamma traj 0)

/-- `emperical_policy_value` (lines 573–608): accumulate the trajectory
value vectors over `zeta`, then divide by `len(zeta)`. -/
def emperical_policy_value (phi : List (St → ℚ)) (gamma : ℚ)
    (zeta : List (List (St × Ac))) : List ℚ :=
  ((zeta.foldl (fun acc t => vadd acc (emperical_trajectory_value phi gamma t))
      (List.replicate phi.length 0)).map (fun x => x / (zeta.length : ℚ)))

/-- The first row added by `l1Step` for variable `i` (width `W`):
`-x_i ≤ 0`. -/
def l1Row1 (W i : ℕ) : List ℚ := (List.replicate W (0 : ℚ)).set i (-1)

/-- The second row added by `l1Step` for variable `i` (width `W`):
`x_i - aux_i ≤ 0`, where the auxiliary sits at column `l1off + i`. -/
def l1Row2 (W l1off i : ℕ) : List ℚ :=
  ((List.replicate W (0 : ℚ)).set i 1).set (l1off + i) (-1)

/-! ## Concrete instances used by witness theorems -/

/-- Basis-function list for the empirical-value witness: the identity
feature on `ℕ` states. -/
def c9phi : List (ℕ → ℚ) := [fun s => (s : ℚ)]

/-- Two one-step expert trajectories, starting at states 2 and 4. -/
def c9zeta : List (List (ℕ × ℕ)) := [[(2, 0)], [(4, 0)]]

/-- Zero transition tensor used by structural witnesses. -/
def exT : ℕ → ℕ → ℕ → ℚ := fun _ _ _ => 0

/-- Zero discounted-inverse matrix used by structural witnesses. -/
def exM : ℕ → ℕ → ℚ := fun _ _ => 0

/-- A width-3 LP triple with no rows (`n = 3` true variables). -/
def exP3 : LP := ⟨[0, 0, 0], ⟨3, []⟩, []⟩

/-- One-state sample for the sampled-formulator witness. -/
def c7sample : List ℕ := [0]

/-- One-basis-function value estimate for the sampled-formulator witness. -/
def c7bvf : ℕ → List ℚ := fun _ => [1]

/-- Deterministic transition oracle for the sampled-formulator witness. -/
def c7otf : ℕ → ℕ → ℕ → ℕ := fun _ s _ => s

/-- A width-1 LP triple with no rows. -/
def exP1 : LP := ⟨[0], ⟨1, []⟩, []⟩

/-! ## Helper lemmas: dot products, minima and maxima, vector operations -/

theorem dot_nil_right (l : List ℚ) : dot l [] = 0 := by
  cases l <;> rfl

theorem dot_replicate_zero (m : ℕ) (v : List ℚ) : dot (List.replicate m 0) v = 0 := by
  induction m generalizing v with
  | zero => cases v <;> rfl
  | succ m ih =>
    cases v with
    | nil => rfl
    | cons y ys => simp [List.replicate_succ, dot, ih]

theorem dot_set (l v : List ℚ) (j : ℕ) (a : ℚ) (hj : j < l.length) :
    dot (l.set j a) v = dot l v - l.getD j 0 * v.getD j 0 + a * v.getD j 0 := by
  induction l generalizing j v with
  | nil => simp at hj
  | cons x xs ih =>
    cases j with
    | zero =>
      cases v with
      | nil => simp [dot_nil_right, List.getD]
      | cons y ys => simp [dot, List.getD]; ring
    | succ j =>
      cases v with
      | nil => simp [dot_nil_right, List.getD]
      | cons y ys =>
        have hj' : j < xs.length := by simpa using hj
        simp only [List.set_cons_succ, dot, List.getD_cons_succ]
        rw [ih ys j hj']
        ring

theorem getD_replicate_zero (m i : ℕ) : (List.replicate m (0 : ℚ)).getD i 0 = 0 := by
  rcases lt_or_ge i m with h | h
  · simp [List.getD, List.getElem?_replicate, h]
  · have hlen : (List.replicate m (0 : ℚ)).length ≤ i := by simpa using h
    simp [List.getD, List.getElem?_eq_none hlen]

theorem getD_set_ne (l : List ℚ) (i j : ℕ) (a : ℚ) (h : i ≠ j) :
    (l.set i a).getD j 0 = l.getD j 0 := by
  simp [List.getD, List.getElem?_set_ne h]

/-- `dot` of a one-hot row (zeros with `a` at position `i`) against `v`. -/
theorem dot_oneHot (W i : ℕ) (a : ℚ) (v : List ℚ) (hi : i < W) :
    dot ((List.replicate W (0 : ℚ)).set i a) v = a * v.getD i 0 := by
  rw [dot_set _ _ _ _ (by simpa using hi), dot_replicate_zero, getD_replicate_zero]
  ring

/-- `dot` of a two-hot row against `v` (distinct positions). -/
theorem dot_twoHot (W i j : ℕ) (a b : ℚ) (v : List ℚ)
    (hi : i < W) (hj : j < W) (hij : i ≠ j) :
    dot (((List.replicate W (0 : ℚ)).set i a).set j b) v
      = a * v.getD i 0 + b * v.getD j 0 := by
  rw [dot_set _ _ _ _ (by simpa using hj), dot_oneHot W i a v hi,
    getD_set_ne _ _ _ _ hij, getD_replicate_zero]
  ring

theorem foldl_min_le_init (as : List ℚ) (a : ℚ) : as.foldl min a ≤ a := by
  induction as generalizing a with
  | nil => exact le_refl a
  | cons y ys ih => exact le_trans (ih (min a y)) (min_le_left a y)

theorem foldl_min_le_mem (as : List ℚ) (a x : ℚ) (hx : x ∈ as) :
    as.foldl min a ≤ x := by
  induction as generalizing a with
  | nil => simp at hx
  | cons y ys ih =>
    rcases List.mem_cons.mp hx with rfl | hx'
    · exact le_trans (foldl_min_le_init ys (min a x)) (min_le_right a x)
    · exact ih (min a y) hx'

theorem foldl_min_mem (as : List ℚ) (a : ℚ) : as.foldl min a ∈ a :: as := by
  induction as generalizing a with
  | nil => simp
  | cons y ys ih =>
    have h := ih (min a y)
    rw [List.foldl_cons]
    rcases List.mem_cons.mp h with h1 | h2
    · rcases min_choice a y with h3 | h3
      · rw [h1, h3]; exact List.mem_cons_self _ _
      · rw [h1, h3]; exact List.mem_cons.mpr (Or.inr (List.mem_cons_self _ _))
    · exact List.mem_cons.mpr (Or.inr (List.mem_cons.mpr (Or.inr h2)))

theorem npMin_le (l : List ℚ) (x : ℚ) (hx : x ∈ l) : npMin l ≤ x := by
  cases l with
  | nil => simp at hx
  | cons a as =>
    rcases List.mem_cons.mp hx with rfl | hx'
    · exact foldl_min_le_init as x
    · exact foldl_min_le_mem as a x hx'

theorem npMin_mem (l : List ℚ) (h : l ≠ []) : npMin l ∈ l := by
  cases l with
  | nil => exact absurd rfl h
  | cons a as => exact foldl_min_mem as a

theorem foldl_max_ge_init (as : List ℚ) (a : ℚ) : a ≤ as.foldl max a := by
  induction as generalizing a with
  | nil => exact le_refl a
  | cons y ys ih => exact le_trans (le_max_left a y) (ih (max a y))

theorem foldl_max_ge_mem (as : List ℚ) (a x : ℚ) (hx : x ∈ as) :
    x ≤ as.foldl max a := by
  induction as generalizing a with
  | nil => simp at hx
  | cons y ys ih =>
    rcases List.mem_cons.mp hx with rfl | hx'
    · exact le_trans (le_max_right a x) (foldl_max_ge_init ys (max a x))
    · exact ih (max a y) hx'

theorem foldl_max_mem (as : List ℚ) (a : ℚ) : as.foldl max a ∈ a :: as := by
  induction as generalizing a with
  | nil => simp
  | cons y ys ih =>
    have h := ih (max a y)
    rw [List.foldl_cons]
    rcases List.mem_cons.mp h with h1 | h2
    · rcases max_choice a y with h3 | h3
      · rw [h1, h3]; exact List.mem_cons_self _ _
      · rw [h1, h3]; exact List.mem_cons.mpr (Or.inr (List.mem_cons_self _ _))
    · exact List.mem_cons.mpr (Or.inr (List.mem_cons.mpr (Or.inr h2)))

theorem npMax_ge (l : List ℚ) (x : ℚ) (hx : x ∈ l) : x ≤ npMax l := by
  cases l with
  | nil => simp at hx
  | cons a as =>
    rcases List.mem_cons.mp hx with rfl | hx'
    · exact foldl_max_ge_init as x
    · exact foldl_max_ge_mem as a x hx'

theorem npMax_mem (l : List ℚ) (h : l ≠ []) : npMax l ∈ l := by
  cases l with
  | nil => exact absurd rfl h
  | cons a as => exact foldl_max_mem as a

theorem npMin_le_npMax (l : List ℚ) (h : l ≠ []) : npMin l ≤ npMax l := by
  cases l with
  | nil => exact absurd rfl h
  | cons a as =>
    exact le_trans (npMin_le (a :: as) a (by simp)) (npMax_ge (a :: as) a (by simp))

theorem foldl_min_map (f : ℚ → ℚ) (hf : Monotone f) (as : List ℚ) (a : ℚ) :
    (as.map f).foldl min (f a) = f (as.foldl min a) := by
  induction as generalizing a with
  | nil => rfl
  | cons y ys ih => simp [List.foldl_cons, ← hf.map_min, ih]

theorem foldl_max_map (f : ℚ → ℚ) (hf : Monotone f) (as : List ℚ) (a : ℚ) :
    (as.map f).foldl max (f a) = f (as.foldl max a) := by
  induction as generalizing a with
  | nil => rfl
  | cons y ys ih => simp [List.foldl_cons, ← hf.map_max, ih]

theorem npMin_map (f : ℚ → ℚ) (hf : Monotone f) (l : List ℚ) (h : l ≠ []) :
    npMin (l.map f) = f (npMin l) := by
  cases l with
  | nil => exact absurd rfl h
  | cons a as => simpa [npMin] using foldl_min_map f hf as a

theorem npMax_map (f : ℚ → ℚ) (hf : Monotone f) (l : List ℚ) (h : l ≠ []) :
    npMax (l.map f) = f (npMax l) := by
  cases l with
  | nil => exact absurd rfl h
  | cons a as => simpa [npMax] using foldl_max_map f hf as a

theorem length_vadd (a b : List ℚ) : (vadd a b).length = min a.length b.length :=
  List.length_zipWith _ a b

theorem length_vsub (a b : List ℚ) : (vsub a b).length = min a.length b.length :=
  List.length_zipWith _ a b

theorem getD_vadd (a b : List ℚ) (i : ℕ) (ha : i < a.length) (hb : i < b.length) :
    (vadd a b).getD i 0 = a.getD i 0 + b.getD i 0 := by
  induction a generalizing b i with
  | nil => simp at ha
  | cons x xs ih =>
    cases b with
    | nil => simp at hb
    | cons y ys =>
      cases i with
      | zero => simp [vadd, List.getD]
      | succ i =>
        have ha' : i < xs.length := by simpa using ha
        have hb' : i < ys.length := by simpa using hb
        simpa [vadd, List.getD_cons_succ] using ih ys i ha' hb'

/-! ## Helper lemmas: constraint satisfaction and normalization -/

theorem satRows_append (rs1 rs2 : List (List ℚ)) (bs1 bs2 v : List ℚ)
    (h : rs1.length = bs1.length) :
    satRows (rs1 ++ rs2) (bs1 ++ bs2) v ↔ satRows rs1 bs1 v ∧ satRows rs2 bs2 v := by
  induction rs1 generalizing bs1 with
  | nil =>
    cases bs1 with
    | nil => simp [satRows]
    | cons bb bs => simp at h
  | cons r rs ih =>
    cases bs1 with
    | nil => simp at h
    | cons bb bs =>
      have h' : rs.length = bs.length := by simpa using h
      simp only [List.cons_append, satRows]
      rw [show rs.append rs2 = rs ++ rs2 from rfl, show bs.append bs2 = bs ++ bs2 from rfl,
        ih bs h', and_assoc]

theorem satRows_nil (bs v : List ℚ) : satRows [] bs v := by
  cases bs <;> trivial

theorem fdiv_zero (a : ℚ) : fdiv a 0 = FVal.nan := by simp [fdiv]

theorem normalize_const (vals : List ℚ) (h : npMin vals = npMax vals) :
    normalize vals = List.replicate vals.length FVal.nan := by
  unfold normalize
  rw [show npMax vals - npMin vals = 0 by rw [h]; ring]
  simp [fdiv_zero, List.map_const']

theorem normalize_nonconst (vals : List ℚ) (h : npMin vals ≠ npMax vals) :
    normalize vals
      = (vals.map (fun v => (v - npMin vals) / (npMax vals - npMin vals))).map
          FVal.rat := by
  unfold normalize
  have hD : npMax vals - npMin vals ≠ 0 := sub_ne_zero_of_ne (Ne.symm h)
  rw [List.map_map]
  apply List.map_congr_left
  intro v _
  simp [fdiv, hD, Function.comp]

/-! ## Claim C1 (solver-failure propagation) -/

/-- Claim C1, counterexample: with a non-optimal solver status (`unknown`,
resp. `primal infeasible`) but an available iterate, every formulator
returns a reward/weight vector extracted from the solver's output exactly
as on a successful solve — no typed failure is produced. -/
theorem C1_counterexample :
    lp_extract_rewards 2 1 ⟨SolStatus.unknown, some [0, 1]⟩
        = Except.ok ([FVal.rat 0, FVal.rat 1], ⟨SolStatus.unknown, some [0, 1]⟩)
    ∧ llp_extract 1 ⟨SolStatus.primalInfeasible, some [5]⟩
        = Except.ok ([5], ⟨SolStatus.primalInfeasible, some [5]⟩)
    ∧ tlp_extract 1 ⟨SolStatus.unknown, some [3]⟩ = Except.ok [3] := by
  refine ⟨?_, rfl, rfl⟩
  norm_num [lp_extract_rewards, normalize, npMin, npMax, fdiv, fscale,
    min_def, max_def]

/-- Claim C1, amended: no formulator inspects the solver status. Whenever
`res['x']` is a vector, each formulator returns its post-processed output
(together with the raw result object) identically for every status; when
`res['x']` is `None`, slicing it raises an untyped `TypeError` — there is
no typed solver-failure path at all. -/
theorem C1_status_never_checked :
    ∀ (n d : ℕ) (rmax : ℚ) (st : SolStatus) (xs : List ℚ),
    lp_extract_rewards n rmax ⟨st, some xs⟩
        = Except.ok ((normalize (xs.take n)).map (fscale rmax), ⟨st, some xs⟩)
    ∧ llp_extract d ⟨st, some xs⟩ = Except.ok (xs.take d, ⟨st, some xs⟩)
    ∧ tlp_extract d ⟨st, some xs⟩ = Except.ok (xs.take d)
    ∧ lp_extract_rewards n rmax ⟨st, none⟩ = Except.error PyError.typeError
    ∧ llp_extract d ⟨st, none⟩ = Except.error PyError.typeError
    ∧ tlp_extract d ⟨st, none⟩ = Except.error PyError.typeError :=
  fun _ _ _ _ _ => ⟨rfl, rfl, rfl, rfl, rfl, rfl⟩

/-! ## Claim C3 (degenerate normalization) -/

/-- Claim C3, counterexample: on a constant optimal solution `[1, 1]` the
tabular post-solve step does not fail with a distinct degenerate-
normalization error; it silently divides by zero and returns a NaN reward
vector with success. -/
theorem C3_counterexample :
    lp_extract_rewards 2 1 ⟨SolStatus.optimal, some [1, 1]⟩
        = Except.ok ([FVal.nan, FVal.nan], ⟨SolStatus.optimal, some [1, 1]⟩) := by
  norm_num [lp_extract_rewards, normalize, npMin, npMax, fdiv, fscale,
    min_def, max_def]

/-- Claim C3, amended: the tabular formulator rescales the solution by
min–max normalization, and when the sliced solution is constant
(`max == min`) the division by zero silently yields `nan` in every entry;
the NaN vector is returned as a successful result, with no distinct
error. -/
theorem C3_constant_solution_gives_nan :
    ∀ (n : ℕ) (rmax : ℚ) (st : SolStatus) (xs : List ℚ),
    npMin (xs.take n) = npMax (xs.take n) →
    lp_extract_rewards n rmax ⟨st, some xs⟩
      = Except.ok (List.replicate (xs.take n).length FVal.nan, ⟨st, some xs⟩) := by
  intro n rmax st xs h
  show Except.ok ((normalize (xs.take n)).map (fscale rmax), _) = _
  rw [normalize_const _ h, List.map_replicate]
  rfl

/-- Witness for `C3_constant_solution_gives_nan` at `xs = [3, 3]`. -/
theorem C3_witness :
    npMin (([3, 3] : List ℚ).take 2) = npMax (([3, 3] : List ℚ).take 2)
    ∧ lp_extract_rewards 2 5 ⟨SolStatus.optimal, some [3, 3]⟩
        = Except.ok (List.replicate (([3, 3] : List ℚ).take 2).length FVal.nan,
            ⟨SolStatus.optimal, some [3, 3]⟩) :=
  ⟨by norm_num [npMin, npMax, min_def, max_def],
    C3_constant_solution_gives_nan 2 5 SolStatus.optimal [3, 3]
      (by norm_num [npMin, npMax, min_def, max_def])⟩

/-! ## Claim C10 (non-degenerate rescaling attains both endpoints) -/

/-- Claim C10: when the sliced solver solution is non-constant and
`r_max > 0`, the tabular rescaling returns the vector
`r_max * (x - min) / (max - min)` (all entries rational), whose minimum
entry is exactly `0` and whose maximum entry is exactly `r_max`. -/
theorem C10_rescale_attains_endpoints :
    ∀ (n : ℕ) (rmax : ℚ) (st : SolStatus) (xs : List ℚ),
    xs.take n ≠ [] → npMin (xs.take n) ≠ npMax (xs.take n) → 0 < rmax →
    lp_extract_rewards n rmax ⟨st, some xs⟩
        = Except.ok
            (((xs.take n).map (fun q =>
                rmax * ((q - npMin (xs.take n)) / (npMax (xs.take n) - npMin (xs.take n))))).map
              FVal.rat,
             ⟨st, some xs⟩)
    ∧ npMin ((xs.take n).map (fun q =>
        rmax * ((q - npMin (xs.take n)) / (npMax (xs.take n) - npMin (xs.take n))))) = 0
    ∧ npMax ((xs.take n).map (fun q =>
        rmax * ((q - npMin (xs.take n)) / (npMax (xs.take n) - npMin (xs.take n))))) = rmax := by
  intro n rmax st xs hne hmm hr
  set v := xs.take n with hv
  set mn := npMin v with hmn
  set mx := npMax v with hmx
  have hD : (0 : ℚ) < mx - mn :=
    sub_pos.mpr (lt_of_le_of_ne (npMin_le_npMax v hne) hmm)
  have hmono : Monotone (fun q : ℚ => rmax * ((q - mn) / (mx - mn))) := by
    intro a b hab
    have h1 : a - mn ≤ b - mn := sub_le_sub_right hab mn
    have h2 : (a - mn) * (mx - mn)⁻¹ ≤ (b - mn) * (mx - mn)⁻¹ :=
      mul_le_mul_of_nonneg_right h1 (inv_nonneg.mpr hD.le)
    simpa [div_eq_mul_inv] using mul_le_mul_of_nonneg_left h2 hr.le
  refine ⟨?_, ?_, ?_⟩
  · show Except.ok ((normalize v).map (fscale rmax), _) = _
    have hlist : (normalize v).map (fscale rmax)
        = (v.map (fun q => rmax * ((q - mn) / (mx - mn)))).map FVal.rat := by
      rw [normalize_nonconst v hmm]
      simp only [List.map_map]
      apply List.map_congr_left
      intro q _
      simp [Function.comp, fscale, hmn, hmx]
    rw [hlist]
  · rw [npMin_map _ hmono v hne]
    show rmax * ((mn - mn) / (mx - mn)) = 0
    simp
  · rw [npMax_map _ hmono v hne]
    show rmax * ((mx - mn) / (mx - mn)) = rmax
    rw [div_self (ne_of_gt hD)]
    ring

/-- Witness for `C10_rescale_attains_endpoints` at `xs = [0, 1]`,
`r_max = 1`. -/
theorem C10_witness :
    (([0, 1] : List ℚ).take 2 ≠ []
      ∧ npMin (([0, 1] : List ℚ).take 2) ≠ npMax (([0, 1] : List ℚ).take 2)
      ∧ (0 : ℚ) < 1)
    ∧ npMin ((([0, 1] : List ℚ).take 2).map (fun q =>
        1 * ((q - npMin (([0, 1] : List ℚ).take 2)) /
          (npMax (([0, 1] : List ℚ).take 2) - npMin (([0, 1] : List ℚ).take 2))))) = 0 :=
  ⟨⟨by simp, by norm_num [npMin, npMax, min_def, max_def], by norm_num⟩,
    (C10_rescale_attains_endpoints 2 1 SolStatus.optimal [0, 1]
      (by simp) (by norm_num [npMin, npMax, min_def, max_def]) (by norm_num)).2.1⟩

/-! ## Claim C4 (trajectory-loop convergence and return value) -/

/-- Claim C4, counterexample: with tolerance `1`, previous iterate `[0]`,
and a single LP solution `alpha_new = [1]`, the convergence test succeeds
(distance 1 ≤ tol) and the loop returns `([0], None)`: the vector returned
is the *previous* alpha, not `alpha_new = [1]`, and the second component is
the never-assigned `result = None`, not an iteration count. -/
theorem C4_counterexample :
    tlp_loop 1 [0] [[1]] = some ([0], none) ∧ ([0] : List ℚ) ≠ [1] := by
  constructor
  · have hc : sumSq (vsub [0] [1]) ≤ (1 : ℚ) := by norm_num [sumSq, vsub]
    simp [tlp_loop, hc]
  · norm_num

/-- Claim C4, amended: when the convergence test
`‖alpha - alpha_new‖ ≤ tol` succeeds, the loop terminates immediately
(regardless of further solver responses) and returns the pair
`(alpha, None)` — the alpha from *before* the latest solve paired with the
never-assigned `result` variable; when the test fails the loop continues
with `alpha := alpha_new`. -/
theorem C4_converged_returns_previous :
    ∀ (tol : ℚ) (alpha aNew : List ℚ) (rest : List (List ℚ)),
    (sumSq (vsub alpha aNew) ≤ tol ^ 2 →
      tlp_loop tol alpha (aNew :: rest) = some (alpha, none))
    ∧ (¬ sumSq (vsub alpha aNew) ≤ tol ^ 2 →
      tlp_loop tol alpha (aNew :: rest) = tlp_loop tol aNew rest) := by
  intro tol alpha aNew rest
  constructor <;> intro h <;> simp [tlp_loop, h]

/-- Witness for `C4_converged_returns_previous`: immediate convergence on
a concrete input, ignoring the remaining solver responses. -/
theorem C4_witness :
    sumSq (vsub [0] [0]) ≤ (1 : ℚ) ^ 2
    ∧ tlp_loop 1 [0] [[0], [5]] = some ([0], none) :=
  ⟨by norm_num [sumSq, vsub],
    (C4_converged_returns_previous 1 [0] [0] [[5]]).1 (by norm_num [sumSq, vsub])⟩

/-! ## Claim C5 (inconsistent expert start states) -/

/-- Claim C5: for every trajectory set with at least two trajectories
(here: a first trajectory starting with pair `(a, b)`, a second trajectory
`z2`, and any further trajectories), the start-state consistency check
raises `TypeError` — the loop subscripts its integer loop index
(`demonstration[0]` with `demonstration` drawn from
`range(len(zeta) - 1)`). No warning-and-continue path is reachable, even
for identical start states. -/
theorem C5_start_check_type_error :
    ∀ (a b : Py) (t : List Py) (z2 : List Py) (rest : List (List Py)),
    tlp_start_check ((Py.pair a b :: t) :: z2 :: rest)
      = Except.error PyError.typeError := by
  intro a b t z2 rest
  have hlen : ((Py.pair a b :: t) :: z2 :: rest).length - 1 = rest.length + 1 := by
    simp
  unfold tlp_start_check
  rw [hlen, List.range_succ_eq_map]
  rfl

/-- Evaluation of the start-state check at the concrete failing input
`zeta = [[(0, 0)], [(0, 0)]]` (two demonstrations with *identical* start
states): the check still raises `TypeError`. -/
theorem C5_concrete_failing_input :
    tlp_start_check
        [[Py.pair (Py.int 0) (Py.int 0)], [Py.pair (Py.int 0) (Py.int 0)]]
      = Except.error PyError.typeError := rfl

/-! ## Claim C9 (expert empirical basis-value vector) -/

theorem traj_value_enumFrom {St Ac : Type} (phii : St → ℚ) (gamma : ℚ)
    (t : List (St × Ac)) :
    ∀ j : ℕ, traj_value_i phii gamma t j
      = ((t.enumFrom j).map (fun p => gamma ^ p.1 * phii p.2.1)).sum := by
  induction t with
  | nil => intro j; simp [traj_value_i]
  | cons sa rest ih =>
    intro j
    simp only [traj_value_i, List.enumFrom_cons, List.map_cons, List.sum_cons, ih (j + 1)]

theorem getD_etv {St Ac : Type} (phi : List (St → ℚ)) (gamma : ℚ)
    (t : List (St × Ac)) (i : ℕ) (hi : i < phi.length) :
    (emperical_trajectory_value phi gamma t).getD i 0
      = traj_value_i (phi.getD i (fun _ => 0)) gamma t 0 := by
  unfold emperical_trajectory_value
  simp [List.getD, List.getElem?_map, List.getElem?_eq_getElem hi]

theorem getD_map_div (l : List ℚ) (c : ℚ) (i : ℕ) (hi : i < l.length) :
    (l.map (fun x => x / c)).getD i 0 = l.getD i 0 / c := by
  simp [List.getD, List.get?_eq_getElem?, List.getElem?_map,
    List.getElem?_eq_getElem hi]

theorem epv_foldl_length {St Ac : Type} (phi : List (St → ℚ)) (gamma : ℚ) :
    ∀ (zeta : List (List (St × Ac))) (acc : List ℚ), acc.length = phi.length →
    (zeta.foldl (fun a t => vadd a (emperical_trajectory_value phi gamma t)) acc).length
      = phi.length := by
  intro zeta
  induction zeta with
  | nil => intro acc h; simpa using h
  | cons t ts ih =>
    intro acc h
    simp only [List.foldl_cons]
    exact ih _ (by
      rw [length_vadd, h]
      simp [emperical_trajectory_value])

theorem epv_foldl_getD {St Ac : Type} (phi : List (St → ℚ)) (gamma : ℚ)
    (i : ℕ) (hi : i < phi.length) :
    ∀ (zeta : List (List (St × Ac))) (acc : List ℚ), acc.length = phi.length →
    (zeta.foldl (fun a t => vadd a (emperical_trajectory_value phi gamma t)) acc).getD i 0
      = acc.getD i 0
        + (zeta.map (fun t => traj_value_i (phi.getD i (fun _ => 0)) gamma t 0)).sum := by
  intro zeta
  induction zeta with
  | nil => intro acc _; simp
  | cons t ts ih =>
    intro acc h
    have hlen : (vadd acc (emperical_trajectory_value phi gamma t)).length = phi.length := by
      rw [length_vadd, h]
      simp [emperical_trajectory_value]
    simp only [List.foldl_cons, List.map_cons, List.sum_cons]
    rw [ih _ hlen,
      getD_vadd _ _ _ (by rw [h]; exact hi)
        (by simpa [emperical_trajectory_value] using hi),
      getD_etv phi gamma t i hi]
    ring

/-- Claim C9: for non-empty expert trajectory sets, the INIT step computes
`v_E = (1/|zeta|) * sum over trajectories of sum over steps t of
gamma^t * phi_i(s_t)` — the accumulation loops of `emperical_policy_value`
equal the closed double-sum formula in every coordinate. -/
theorem C9_expert_value_vector :
    ∀ (St Ac : Type) (phi : List (St → ℚ)) (gamma : ℚ)
      (zeta : List (List (St × Ac))),
    zeta ≠ [] → ∀ i, i < phi.length →
    (emperical_policy_value phi gamma zeta).getD i 0
      = (1 / (zeta.length : ℚ)) *
          (zeta.map (fun traj =>
            (traj.enum.map (fun p =>
              gamma ^ p.1 * (phi.getD i (fun _ => 0)) p.2.1)).sum)).sum := by
  intro St Ac phi gamma zeta _ i hi
  unfold emperical_policy_value
  have hfold := epv_foldl_getD phi gamma i hi zeta (List.replicate phi.length 0)
    (by simp)
  have hlen := epv_foldl_length phi gamma zeta (List.replicate phi.length 0)
    (by simp)
  rw [getD_map_div _ _ i (by rw [hlen]; exact hi), hfold, getD_replicate_zero]
  have henum : ∀ traj : List (St × Ac),
      traj_value_i (phi.getD i (fun _ => 0)) gamma traj 0
        = (traj.enum.map (fun p => gamma ^ p.1 * (phi.getD i (fun _ => 0)) p.2.1)).sum :=
    fun traj => traj_value_enumFrom (phi.getD i (fun _ => 0)) gamma traj 0
  simp only [henum]
  ring

/-! ## Claim C2 (L1 regularization constraint rows) -/

theorem l1_fold_structure (l1off : ℕ) : ∀ (l : List ℕ) (Q : LP),
    ((l.foldl (l1Step l1off) Q).c = Q.c)
    ∧ ((l.foldl (l1Step l1off) Q).A.w = Q.A.w)
    ∧ ((l.foldl (l1Step l1off) Q).A.rows
        = Q.A.rows ++ l.flatMap (fun i => [l1Row1 Q.A.w i, l1Row2 Q.A.w l1off i]))
    ∧ ((l.foldl (l1Step l1off) Q).b = Q.b ++ List.replicate (2 * l.length) 0) := by
  intro l
  induction l with
  | nil => intro Q; simp
  | cons i is ih =>
    intro Q
    have hstep : l1Step l1off Q i
        = ⟨Q.c, ⟨Q.A.w, Q.A.rows ++ [l1Row1 Q.A.w i, l1Row2 Q.A.w l1off i]⟩,
            Q.b ++ [0, 0]⟩ := by
      simp [l1Step, Mat.vstack, l1Row1, l1Row2]
    obtain ⟨hc, hw, hrows, hb⟩ := ih (l1Step l1off Q i)
    refine ⟨?_, ?_, ?_, ?_⟩
    · rw [List.foldl_cons, hc, hstep]
    · rw [List.foldl_cons, hw, hstep]
    · rw [List.foldl_cons, hrows, hstep]
      simp [List.append_assoc]
    · rw [List.foldl_cons, hb, hstep]
      have h2 : 2 * (i :: is).length = 2 + 2 * is.length := by
        simp [List.length_cons]; ring
      rw [h2, List.replicate_add]
      simp [List.append_assoc, List.replicate_succ]

theorem dot_l1Row1 (W i : ℕ) (v : List ℚ) (hi : i < W) :
    dot (l1Row1 W i) v = -(v.getD i 0) := by
  rw [l1Row1, dot_oneHot W i (-1) v hi]
  ring

theorem dot_l1Row2 (W l1off i : ℕ) (v : List ℚ) (hi : i < W)
    (hoi : l1off + i < W) (hne : i ≠ l1off + i) :
    dot (l1Row2 W l1off i) v = v.getD i 0 - v.getD (l1off + i) 0 := by
  rw [l1Row2, dot_twoHot W i (l1off + i) 1 (-1) v hi hoi hne]
  ring

theorem satRows_l1_flatMap (W l1off : ℕ) (v : List ℚ) : ∀ (l : List ℕ),
    satRows (l.flatMap (fun i => [l1Row1 W i, l1Row2 W l1off i]))
        (List.replicate (2 * l.length) 0) v
      ↔ ∀ i ∈ l, dot (l1Row1 W i) v ≤ 0 ∧ dot (l1Row2 W l1off i) v ≤ 0 := by
  intro l
  induction l with
  | nil => simp [satRows]
  | cons i is ih =>
    have h2 : 2 * (i :: is).length = 2 + 2 * is.length := by
      simp [List.length_cons]; ring
    rw [List.flatMap_cons, h2, List.replicate_add]
    show satRows (l1Row1 W i :: l1Row2 W l1off i :: is.flatMap _)
      (0 :: 0 :: List.replicate (2 * is.length) 0) v ↔ _
    simp only [satRows, ih]
    constructor
    · rintro ⟨h1, h2, h3⟩
      intro j hj
      rcases List.mem_cons.mp hj with rfl | hj'
      · exact ⟨h1, h2⟩
      · exact h3 j hj'
    · intro h
      exact ⟨(h i (by simp)).1, (h i (by simp)).2,
        fun j hj => h j (List.mem_cons.mpr (Or.inr hj))⟩

/-- The satisfaction characterization of the rows added by
`add_l1norm_constraints` to a rowless triple of width `c.length`: an
assignment `v` satisfies every added row iff for each true variable
`i < n`, `v_i ≥ 0` and `v_i ≤ v_{c.length + i}` (the auxiliary). -/
theorem l1_sat_iff (n : ℕ) (l1 : ℚ) (c v : List ℚ) (hn : n ≤ c.length) :
    satRows (add_l1norm_constraints n l1 ⟨c, ⟨c.length, []⟩, []⟩).A.rows
        (add_l1norm_constraints n l1 ⟨c, ⟨c.length, []⟩, []⟩).b v
      ↔ ∀ i < n, 0 ≤ v.getD i 0 ∧ v.getD i 0 ≤ v.getD (c.length + i) 0 := by
  have hoff : (c ++ List.replicate n l1).length - n = c.length := by
    simp
  have hW : (Mat.hstackZeros ⟨c.length, []⟩ n).w = c.length + n := rfl
  obtain ⟨hc, hw, hrows, hb⟩ :=
    l1_fold_structure ((c ++ List.replicate n l1).length - n) (List.range n)
      ⟨c ++ List.replicate n l1, Mat.hstackZeros ⟨c.length, []⟩ n, []⟩
  rw [show add_l1norm_constraints n l1 ⟨c, ⟨c.length, []⟩, []⟩
      = (List.range n).foldl (l1Step ((c ++ List.replicate n l1).length - n))
          ⟨c ++ List.replicate n l1, Mat.hstackZeros ⟨c.length, []⟩ n, []⟩ from rfl,
    hrows, hb]
  simp only [hoff, Mat.hstackZeros, List.map_nil, List.nil_append]
  rw [satRows_l1_flatMap (c.length + n) c.length v (List.range n)]
  constructor
  · intro h i hi
    have hiW : i < c.length + n := by omega
    have hoiW : c.length + i < c.length + n := by omega
    have hne : i ≠ c.length + i := by omega
    have := h i (List.mem_range.mpr hi)
    rw [dot_l1Row1 _ _ _ hiW, dot_l1Row2 _ _ _ _ hiW hoiW hne] at this
    constructor
    · linarith [this.1]
    · linarith [this.2]
  · intro h i hi
    have hi' : i < n := List.mem_range.mp hi
    have hiW : i < c.length + n := by omega
    have hoiW : c.length + i < c.length + n := by omega
    have hne : i ≠ c.length + i := by omega
    rw [dot_l1Row1 _ _ _ hiW, dot_l1Row2 _ _ _ _ hiW hoiW hne]
    have := h i hi'
    constructor
    · linarith [this.1]
    · linarith [this.2]

/-- Claim C2, counterexample: for `n = 2` true variables in a width-4
triple (true variables first, as in the tabular pipeline), the assignment
`x = [-0.5, 0.3]`, helpers `[0, 0]`, `aux = [0.5, 0.3]` violates an added
L1 row: the block's first row for `i = 0` is `-x_0 ≤ 0`, i.e. it forces
`x_0 ≥ 0`, and `x_0 = -0.5 < 0`. -/
theorem C2_counterexample :
    ¬ satRows
        (add_l1norm_constraints 2 1 ⟨[0, 0, 0, 0], ⟨([0, 0, 0, 0] : List ℚ).length, []⟩, []⟩).A.rows
        (add_l1norm_constraints 2 1 ⟨[0, 0, 0, 0], ⟨([0, 0, 0, 0] : List ℚ).length, []⟩, []⟩).b
        [-(1 / 2), 3 / 10, 0, 0, 1 / 2, 3 / 10] := by
  intro h
  have := (l1_sat_iff 2 1 [0, 0, 0, 0]
    [-(1 / 2), 3 / 10, 0, 0, 1 / 2, 3 / 10] (by norm_num)).mp h 0 (by norm_num)
  have h0 : ([-(1 / 2), 3 / 10, 0, 0, 1 / 2, 3 / 10] : List ℚ).getD 0 0 = -(1 / 2) := rfl
  rw [h0] at this
  linarith [this.1]

/-- Claim C2, amended: the rows added by the tabular L1Regularization
block enforce exactly `x_i ≥ 0` and `aux_i ≥ x_i` (not `aux_i ≥ -x_i`):
an assignment satisfies every added row iff each true variable is
non-negative and bounded by its auxiliary. Consequently `x = [-0.5, 0.3]`
is infeasible for every choice of aux, and for non-negative `x` any
`aux_i < |x_i| = x_i` still violates a row. -/
theorem C2_l1_rows_characterization :
    ∀ (n : ℕ) (l1 : ℚ) (c v : List ℚ), n ≤ c.length →
    (satRows (add_l1norm_constraints n l1 ⟨c, ⟨c.length, []⟩, []⟩).A.rows
        (add_l1norm_constraints n l1 ⟨c, ⟨c.length, []⟩, []⟩).b v
      ↔ ∀ i < n, 0 ≤ v.getD i 0 ∧ v.getD i 0 ≤ v.getD (c.length + i) 0) :=
  fun n l1 c v hn => l1_sat_iff n l1 c v hn

/-- Witness for `C2_l1_rows_characterization`: with one true variable
`x_0 = 1` and auxiliary `aux_0 = 2`, every added row is satisfied. -/
theorem C2_witness :
    satRows (add_l1norm_constraints 1 1 ⟨[0], ⟨([0] : List ℚ).length, []⟩, []⟩).A.rows
      (add_l1norm_constraints 1 1 ⟨[0], ⟨([0] : List ℚ).length, []⟩, []⟩).b [1, 2] :=
  (C2_l1_rows_characterization 1 1 [0] [1, 2] (by norm_num)).mpr (by
    intro i hi
    have : i = 0 := by omega
    subst this
    norm_num [List.getD])

/-- Witness for `C9_expert_value_vector`: identity basis, `gamma = 1`,
two single-step expert trajectories. -/
theorem C9_witness :
    c9zeta ≠ []
    ∧ (emperical_policy_value c9phi 1 c9zeta).getD 0 0
        = (1 / (c9zeta.length : ℚ)) *
            (c9zeta.map (fun traj =>
              (traj.enum.map (fun p =>
                (1 : ℚ) ^ p.1 * (c9phi.getD 0 (fun _ => 0)) p.2.1)).sum)).sum :=
  ⟨by simp [c9zeta],
    C9_expert_value_vector ℕ ℕ c9phi 1 c9zeta (by simp [c9zeta]) 0 (by simp [c9phi])⟩

/-! ## Claim C6 (tabular CostlySingleStep block counts) -/

theorem css_fold_counts (n : ℕ) (T : ℕ → ℕ → ℕ → ℚ) (M : ℕ → ℕ → ℚ)
    (cssOff : ℕ) : ∀ (l : List ℕ) (Q : LP),
    ((l.foldl (cssStep n T M cssOff) Q).c = Q.c)
    ∧ ((l.foldl (cssStep n T M cssOff) Q).A.rows.length
        = Q.A.rows.length + l.length * n)
    ∧ ((l.foldl (cssStep n T M cssOff) Q).b.length = Q.b.length + l.length * n) := by
  intro l
  induction l with
  | nil => intro Q; simp
  | cons i is ih =>
    intro Q
    obtain ⟨hc, hr, hb⟩ := ih (cssStep n T M cssOff Q i)
    refine ⟨?_, ?_, ?_⟩
    · rw [List.foldl_cons, hc]; rfl
    · rw [List.foldl_cons, hr]
      simp only [cssStep, Mat.vstack, List.length_append, cssRows, List.length_map,
        List.length_range, List.length_cons]
      ring
    · rw [List.foldl_cons, hb]
      simp only [cssStep, List.length_append, List.length_replicate, List.length_cons]
      ring

/-- Claim C6: for every transition tensor, discounted inverse and input
triple (with the true variables occupying the first `n ≤ len(c)` columns),
the tabular CostlySingleStep block appends exactly `n` new optimization
variables, each entering the objective with weight `-1`, and exactly
`(k-1)·n` new constraint rows (with matching bounds). At `k = 2`, `n = 3`
this is 3 helper variables and 3 rows. -/
theorem C6_css_counts :
    ∀ (n k : ℕ) (T : ℕ → ℕ → ℕ → ℚ) (M : ℕ → ℕ → ℚ) (P : LP), n ≤ P.c.length →
    (add_costly_single_step_constraints n k T M P).c.length = P.c.length + n
    ∧ (add_costly_single_step_constraints n k T M P).c.drop P.c.length
        = List.replicate n (-1)
    ∧ (add_costly_single_step_constraints n k T M P).A.rows.length
        = P.A.rows.length + (k - 1) * n
    ∧ (add_costly_single_step_constraints n k T M P).b.length
        = P.b.length + (k - 1) * n := by
  intro n k T M P _
  obtain ⟨hc, hr, hb⟩ :=
    css_fold_counts n T M ((P.c ++ List.replicate n (-1)).length - n)
      (List.range (k - 1)) ⟨P.c ++ List.replicate n (-1), P.A.hstackZeros n, P.b⟩
  have hdef : add_costly_single_step_constraints n k T M P
      = (List.range (k - 1)).foldl
          (cssStep n T M ((P.c ++ List.replicate n (-1)).length - n))
          ⟨P.c ++ List.replicate n (-1), P.A.hstackZeros n, P.b⟩ := rfl
  refine ⟨?_, ?_, ?_, ?_⟩
  · rw [hdef, hc]; simp
  · rw [hdef, hc]; exact List.drop_left _ _
  · rw [hdef, hr]
    simp only [Mat.hstackZeros, List.length_map, List.length_range]
  · rw [hdef, hb]
    simp only [List.length_range]

/-- Witness for `C6_css_counts` at `n = 3`, `k = 2` on the empty width-3
triple: 3 new variables (weights `-1`) and `(2-1)·3 = 3` new rows. -/
theorem C6_witness :
    (add_costly_single_step_constraints 3 2 exT exM exP3).c.length = exP3.c.length + 3
    ∧ (add_costly_single_step_constraints 3 2 exT exM exP3).c.drop exP3.c.length
        = List.replicate 3 (-1)
    ∧ (add_costly_single_step_constraints 3 2 exT exM exP3).A.rows.length
        = exP3.A.rows.length + (2 - 1) * 3
    ∧ (add_costly_single_step_constraints 3 2 exT exM exP3).b.length
        = exP3.b.length + (2 - 1) * 3 :=
  C6_css_counts 3 2 exT exM exP3 (by simp [exP3])

/-! ## Claim C7 (sampled formulator LP size) -/

theorem llpcss_fold_counts {St : Type} (nts nbf k m : ℕ) (bvf : St → List ℚ)
    (otf : ℕ → St → ℕ → St) (pc : ℚ) : ∀ (l : List (ℕ × St)) (Q : LP),
    ((l.foldl (llpCssStep nts nbf k m bvf otf pc) Q).c = Q.c)
    ∧ ((l.foldl (llpCssStep nts nbf k m bvf otf pc) Q).A.rows.length
        = Q.A.rows.length + l.length * (2 * (k - 1)))
    ∧ ((l.foldl (llpCssStep nts nbf k m bvf otf pc) Q).b.length
        = Q.b.length + l.length * (2 * (k - 1))) := by
  intro l
  induction l with
  | nil => intro Q; simp
  | cons p ps ih =>
    intro Q
    obtain ⟨hc, hr, hb⟩ := ih (llpCssStep nts nbf k m bvf otf pc Q p)
    refine ⟨?_, ?_, ?_⟩
    · rw [List.foldl_cons, hc]; rfl
    · rw [List.foldl_cons, hr]
      simp only [llpCssStep, Mat.vstack, List.length_append, llp_css_state_rows,
        List.length_map, List.length_range, List.length_cons]
      ring
    · rw [List.foldl_cons, hb]
      simp only [llpCssStep, List.length_append, List.length_replicate,
        List.length_cons]
      ring

theorem alpha_fold_counts : ∀ (l : List ℕ) (Q : LP),
    ((l.foldl alphaStep Q).c = Q.c)
    ∧ ((l.foldl alphaStep Q).A.rows.length = Q.A.rows.length + 2 * l.length)
    ∧ ((l.foldl alphaStep Q).b.length = Q.b.length + 2 * l.length) := by
  intro l
  induction l with
  | nil => intro Q; simp
  | cons i is ih =>
    intro Q
    obtain ⟨hc, hr, hb⟩ := ih (alphaStep Q i)
    refine ⟨?_, ?_, ?_⟩
    · rw [List.foldl_cons, hc]; rfl
    · rw [List.foldl_cons, hr]
      simp only [alphaStep, Mat.vstack, List.length_append, List.length_singleton,
        List.length_cons, List.length_nil]
      ring
    · rw [List.foldl_cons, hb]
      simp only [alphaStep, List.length_append, List.length_singleton,
        List.length_cons, List.length_nil]
      ring

/-- Claim C7: for a non-empty state sample and at least two actions (the
shapes on which the Python formulator runs), the sampled formulator's LP
has exactly one helper variable per sampled state (appended after the `d`
basis coefficients, each with objective weight `-1`) and
`2·(k-1)` rows per sampled state plus `2·d` bound rows: in total `d + m`
objective entries and `2·(k-1)·m + 2·d` rows, with bounds to match. -/
theorem C7_llp_counts :
    ∀ (St : Type) (sample : List St) (k nts : ℕ) (bvf : St → List ℚ)
      (otf : ℕ → St → ℕ → St) (pc : ℚ),
    1 ≤ sample.length → 2 ≤ k →
    (large_linear_programming_problem sample k nts bvf otf pc).c.length
        = llp_num_basis sample bvf + sample.length
    ∧ (large_linear_programming_problem sample k nts bvf otf pc).c.drop
        (llp_num_basis sample bvf) = List.replicate sample.length (-1)
    ∧ (large_linear_programming_problem sample k nts bvf otf pc).A.rows.length
        = 2 * (k - 1) * sample.length + 2 * llp_num_basis sample bvf
    ∧ (large_linear_programming_problem sample k nts bvf otf pc).b.length
        = 2 * (k - 1) * sample.length + 2 * llp_num_basis sample bvf := by
  intro St sample k nts bvf otf pc _ _
  obtain ⟨hc1, hr1, hb1⟩ :=
    llpcss_fold_counts nts (llp_num_basis sample bvf) k sample.length bvf otf pc
      sample.enum
      ⟨List.replicate (llp_num_basis sample bvf) 0 ++ List.replicate sample.length (-1),
        Mat.hstackZeros ⟨llp_num_basis sample bvf, []⟩ sample.length, []⟩
  obtain ⟨hc2, hr2, hb2⟩ :=
    alpha_fold_counts (List.range (llp_num_basis sample bvf))
      (llp_add_css sample k nts (llp_num_basis sample bvf) bvf otf pc
        ⟨List.replicate (llp_num_basis sample bvf) 0,
          ⟨llp_num_basis sample bvf, []⟩, []⟩)
  have hdef : large_linear_programming_problem sample k nts bvf otf pc
      = (List.range (llp_num_basis sample bvf)).foldl alphaStep
          (llp_add_css sample k nts (llp_num_basis sample bvf) bvf otf pc
            ⟨List.replicate (llp_num_basis sample bvf) 0,
              ⟨llp_num_basis sample bvf, []⟩, []⟩) := rfl
  have hdef2 : llp_add_css sample k nts (llp_num_basis sample bvf) bvf otf pc
        ⟨List.replicate (llp_num_basis sample bvf) 0,
          ⟨llp_num_basis sample bvf, []⟩, []⟩
      = sample.enum.foldl
          (llpCssStep nts (llp_num_basis sample bvf) k sample.length bvf otf pc)
          ⟨List.replicate (llp_num_basis sample bvf) 0 ++ List.replicate sample.length (-1),
            Mat.hstackZeros ⟨llp_num_basis sample bvf, []⟩ sample.length, []⟩ := rfl
  refine ⟨?_, ?_, ?_, ?_⟩
  · rw [hdef, hc2, hdef2, hc1]; simp
  · rw [hdef, hc2, hdef2, hc1]
    exact List.drop_left' (by simp)
  · rw [hdef, hr2, hdef2, hr1]
    simp only [Mat.hstackZeros, List.length_map, List.length_range, List.enum_length,
      List.length_nil]
    ring
  · rw [hdef, hb2, hdef2, hb1]
    simp only [List.length_range, List.enum_length, List.length_nil]
    ring

/-- Witness for `C7_llp_counts`: one sampled state, two actions, one basis
function: `1 + 1` objective entries and `2·1·1 + 2·1 = 4` rows. -/
theorem C7_witness :
    (large_linear_programming_problem c7sample 2 1 c7bvf c7otf 2).c.length
        = llp_num_basis c7sample c7bvf + c7sample.length
    ∧ (large_linear_programming_problem c7sample 2 1 c7bvf c7otf 2).c.drop
        (llp_num_basis c7sample c7bvf) = List.replicate c7sample.length (-1)
    ∧ (large_linear_programming_problem c7sample 2 1 c7bvf c7otf 2).A.rows.length
        = 2 * (2 - 1) * c7sample.length + 2 * llp_num_basis c7sample c7bvf
    ∧ (large_linear_programming_problem c7sample 2 1 c7bvf c7otf 2).b.length
        = 2 * (2 - 1) * c7sample.length + 2 * llp_num_basis c7sample c7bvf :=
  C7_llp_counts ℕ c7sample 2 1 c7bvf c7otf 2 (by simp [c7sample]) (by norm_num)

/-! ## Claim C8 (LPProblem invariant preservation) -/

theorem hstackZeros_wf (A : Mat) (k : ℕ) (h : ∀ r ∈ A.rows, r.length = A.w) :
    ∀ r ∈ (A.hstackZeros k).rows, r.length = (A.hstackZeros k).w := by
  intro r hr
  simp only [Mat.hstackZeros, List.mem_map] at hr
  obtain ⟨r0, hr0, rfl⟩ := hr
  simp [h r0 hr0, Mat.hstackZeros]

theorem policyRow_length (n : ℕ) (T : ℕ → ℕ → ℕ → ℚ) (M : ℕ → ℕ → ℚ)
    (i s : ℕ) : (policyRow n T M i s).length = n := by
  simp [policyRow]

theorem policyRows_mem_length (n : ℕ) (T : ℕ → ℕ → ℕ → ℚ) (M : ℕ → ℕ → ℚ)
    (i : ℕ) : ∀ r ∈ policyRows n T M i, r.length = n := by
  intro r hr
  obtain ⟨s, _, rfl⟩ := List.mem_map.mp hr
  exact policyRow_length n T M i s

theorem aopc_step_inv (n : ℕ) (T : ℕ → ℕ → ℕ → ℚ) (M : ℕ → ℕ → ℚ)
    (Q : LP) (i : ℕ) (h : LPInv Q) (hw : Q.A.w = n) :
    LPInv (aopcStep n T M Q i) := by
  obtain ⟨h1, h2, h3⟩ := h
  refine ⟨h1, ?_, ?_⟩
  · intro r hr
    rcases List.mem_append.mp hr with hr | hr
    · exact h2 r hr
    · show r.length = Q.A.w
      rw [hw]
      exact policyRows_mem_length n T M i r hr
  · show (Q.A.rows ++ policyRows n T M i).length
        = (Q.b ++ List.replicate n (0 : ℚ)).length
    simp [policyRows, h3]

theorem aopc_fold_inv (n : ℕ) (T : ℕ → ℕ → ℕ → ℚ) (M : ℕ → ℕ → ℚ) :
    ∀ (l : List ℕ) (Q : LP), LPInv Q → Q.A.w = n →
    LPInv (l.foldl (aopcStep n T M) Q) := by
  intro l
  induction l with
  | nil => intro Q h _; exact h
  | cons i is ih =>
    intro Q h hw
    exact ih _ (aopc_step_inv n T M Q i h hw) hw

theorem inv_aopc (n k : ℕ) (T : ℕ → ℕ → ℕ → ℚ) (M : ℕ → ℕ → ℚ) (P : LP)
    (h : LPInv P) (hw : P.A.w = n) :
    LPInv (add_optimal_policy_constraints n k T M P) :=
  aopc_fold_inv n T M (List.range (k - 1)) P h hw

theorem cssRow_length (n : ℕ) (T : ℕ → ℕ → ℕ → ℚ) (M : ℕ → ℕ → ℚ)
    (cssOff i s : ℕ) : (cssRow n T M cssOff i s).length = n + (cssOff - n) + n := by
  simp [cssRow, policyRow_length, idRow]
  omega

theorem css_step_inv (n : ℕ) (T : ℕ → ℕ → ℕ → ℚ) (M : ℕ → ℕ → ℚ)
    (cssOff : ℕ) (Q : LP) (i : ℕ) (h : LPInv Q)
    (hw : n + (cssOff - n) + n = Q.A.w) : LPInv (cssStep n T M cssOff Q i) := by
  obtain ⟨h1, h2, h3⟩ := h
  refine ⟨h1, ?_, ?_⟩
  · intro r hr
    rcases List.mem_append.mp hr with hr | hr
    · exact h2 r hr
    · show r.length = Q.A.w
      obtain ⟨s, _, rfl⟩ := List.mem_map.mp hr
      rw [cssRow_length, hw]
  · show (Q.A.rows ++ cssRows n T M cssOff i).length
      = (Q.b ++ List.replicate n (0 : ℚ)).length
    simp [cssRows, h3]

theorem css_fold_inv (n : ℕ) (T : ℕ → ℕ → ℕ → ℚ) (M : ℕ → ℕ → ℚ) (cssOff : ℕ) :
    ∀ (l : List ℕ) (Q : LP), LPInv Q → n + (cssOff - n) + n = Q.A.w →
    LPInv (l.foldl (cssStep n T M cssOff) Q) := by
  intro l
  induction l with
  | nil => intro Q h _; exact h
  | cons i is ih =>
    intro Q h hw
    exact ih _ (css_step_inv n T M cssOff Q i h hw) hw

theorem inv_css (n k : ℕ) (T : ℕ → ℕ → ℕ → ℚ) (M : ℕ → ℕ → ℚ) (P : LP)
    (h : LPInv P) (hn : n ≤ P.c.length) :
    LPInv (add_costly_single_step_constraints n k T M P) := by
  obtain ⟨h1, h2, h3⟩ := h
  have hoff : (P.c ++ List.replicate n (-1 : ℚ)).length - n = P.c.length := by simp
  apply css_fold_inv
  · refine ⟨?_, ?_, ?_⟩
    · show P.A.w + n = (P.c ++ List.replicate n (-1 : ℚ)).length
      simp [h1]
    · exact hstackZeros_wf P.A n h2
    · show (P.A.hstackZeros n).rows.length = P.b.length
      simp [Mat.hstackZeros, h3]
  · show n + ((P.c ++ List.replicate n (-1 : ℚ)).length - n - n) + n
      = (P.A.hstackZeros n).w
    rw [hoff]
    show n + (P.c.length - n) + n = P.A.w + n
    rw [h1]
    omega

theorem rmax_step_inv (rmax : ℚ) (Q : LP) (i : ℕ) (h : LPInv Q) :
    LPInv (rmaxStep rmax Q i) := by
  obtain ⟨h1, h2, h3⟩ := h
  refine ⟨h1, ?_, ?_⟩
  · intro r hr
    rcases List.mem_append.mp hr with hr | hr
    · exact h2 r hr
    · show r.length = Q.A.w
      rcases List.mem_singleton.mp hr with rfl
      simp
  · show (Q.A.rows ++ [_]).length = (Q.b ++ [rmax]).length
    simp [h3]

theorem rmax_fold_inv (rmax : ℚ) : ∀ (l : List ℕ) (Q : LP), LPInv Q →
    LPInv (l.foldl (rmaxStep rmax) Q) := by
  intro l
  induction l with
  | nil => intro Q h; exact h
  | cons i is ih => intro Q h; exact ih _ (rmax_step_inv rmax Q i h)

theorem inv_rmax (n : ℕ) (rmax : ℚ) (P : LP) (h : LPInv P) :
    LPInv (add_rmax_constraints n rmax P) :=
  rmax_fold_inv rmax (List.range n) P h

theorem l1_step_inv (l1off : ℕ) (Q : LP) (i : ℕ) (h : LPInv Q) :
    LPInv (l1Step l1off Q i) := by
  obtain ⟨h1, h2, h3⟩ := h
  refine ⟨h1, ?_, ?_⟩
  · intro r hr
    show r.length = Q.A.w
    rcases List.mem_append.mp hr with hr | hr
    · rcases List.mem_append.mp hr with hr | hr
      · exact h2 r hr
      · rcases List.mem_singleton.mp hr with rfl
        simp
    · rcases List.mem_singleton.mp hr with rfl
      simp [Mat.vstack]
  · show ((Q.A.rows ++ [_]) ++ [_]).length = ((Q.b ++ [(0 : ℚ)]) ++ [(0 : ℚ)]).length
    simp [h3]

theorem l1_fold_inv (l1off : ℕ) : ∀ (l : List ℕ) (Q : LP), LPInv Q →
    LPInv (l.foldl (l1Step l1off) Q) := by
  intro l
  induction l with
  | nil => intro Q h; exact h
  | cons i is ih => intro Q h; exact ih _ (l1_step_inv l1off Q i h)

theorem inv_l1 (n : ℕ) (l1 : ℚ) (P : LP) (h : LPInv P) :
    LPInv (add_l1norm_constraints n l1 P) := by
  obtain ⟨h1, h2, h3⟩ := h
  apply l1_fold_inv
  refine ⟨?_, ?_, ?_⟩
  · show P.A.w + n = (P.c ++ List.replicate n l1).length
    simp [h1]
  · exact hstackZeros_wf P.A n h2
  · show (P.A.hstackZeros n).rows.length = P.b.length
    simp [Mat.hstackZeros, h3]

theorem aveDiffRow_length {St : Type} (nts nbf : ℕ) (bvf : St → List ℚ)
    (otf : ℕ → St → ℕ → St) (s : St) (j : ℕ) :
    (aveDiffRow nts nbf bvf otf s j).length = nbf := by
  simp [aveDiffRow]

theorem llpcss_step_inv {St : Type} (nts nbf k m : ℕ) (bvf : St → List ℚ)
    (otf : ℕ → St → ℕ → St) (pc : ℚ) (Q : LP) (p : ℕ × St) (h : LPInv Q)
    (hw : nbf + m = Q.A.w) : LPInv (llpCssStep nts nbf k m bvf otf pc Q p) := by
  obtain ⟨h1, h2, h3⟩ := h
  refine ⟨h1, ?_, ?_⟩
  · intro r hr
    rcases List.mem_append.mp hr with hr | hr
    · rcases List.mem_append.mp hr with hr | hr
      · exact h2 r hr
      · show r.length = Q.A.w
        obtain ⟨j, _, rfl⟩ := List.mem_map.mp hr
        rw [← hw]
        simp [aveDiffRow_length, tmpRow]
    · show r.length = Q.A.w
      obtain ⟨j, _, rfl⟩ := List.mem_map.mp hr
      rw [← hw]
      simp [aveDiffRow_length, tmpRow]
  · show ((Q.A.rows ++ _) ++ _).length
      = ((Q.b ++ List.replicate (k - 1) (0 : ℚ)) ++ List.replicate (k - 1) (0 : ℚ)).length
    simp [llp_css_state_rows, h3]

theorem llpcss_fold_inv {St : Type} (nts nbf k m : ℕ) (bvf : St → List ℚ)
    (otf : ℕ → St → ℕ → St) (pc : ℚ) : ∀ (l : List (ℕ × St)) (Q : LP), LPInv Q →
    nbf + m = Q.A.w → LPInv (l.foldl (llpCssStep nts nbf k m bvf otf pc) Q) := by
  intro l
  induction l with
  | nil => intro Q h _; exact h
  | cons p ps ih =>
    intro Q h hw
    exact ih _ (llpcss_step_inv nts nbf k m bvf otf pc Q p h hw) hw

theorem inv_llpcss {St : Type} (sample : List St) (k nts nbf : ℕ)
    (bvf : St → List ℚ) (otf : ℕ → St → ℕ → St) (pc : ℚ) (P : LP)
    (h : LPInv P) (hc : P.c.length = nbf) :
    LPInv (llp_add_css sample k nts nbf bvf otf pc P) := by
  obtain ⟨h1, h2, h3⟩ := h
  apply llpcss_fold_inv
  · refine ⟨?_, ?_, ?_⟩
    · show P.A.w + sample.length
        = (P.c ++ List.replicate sample.length (-1 : ℚ)).length
      simp [h1]
    · exact hstackZeros_wf P.A sample.length h2
    · show (P.A.hstackZeros sample.length).rows.length = P.b.length
      simp [Mat.hstackZeros, h3]
  · show nbf + sample.length = (P.A.hstackZeros sample.length).w
    show nbf + sample.length = P.A.w + sample.length
    rw [h1, hc]

theorem alpha_step_inv (Q : LP) (i : ℕ) (h : LPInv Q) : LPInv (alphaStep Q i) := by
  obtain ⟨h1, h2, h3⟩ := h
  refine ⟨h1, ?_, ?_⟩
  · intro r hr
    show r.length = Q.A.w
    rcases List.mem_append.mp hr with hr | hr
    · rcases List.mem_append.mp hr with hr | hr
      · exact h2 r hr
      · rcases List.mem_singleton.mp hr with rfl
        simp
    · rcases List.mem_singleton.mp hr with rfl
      simp [Mat.vstack]
  · show ((Q.A.rows ++ [_]) ++ [_]).length = ((Q.b ++ [(1 : ℚ)]) ++ [(1 : ℚ)]).length
    simp [h3]

theorem alpha_fold_inv : ∀ (l : List ℕ) (Q : LP), LPInv Q →
    LPInv (l.foldl alphaStep Q) := by
  intro l
  induction l with
  | nil => intro Q h; exact h
  | cons i is ih => intro Q h; exact ih _ (alpha_step_inv Q i h)

theorem inv_alpha (q : ℕ) (P : LP) (h : LPInv P) :
    LPInv (add_alpha_size_constraints q P) :=
  alpha_fold_inv (List.range q) P h

theorem inv_expert (d : ℕ) (p : ℚ) (evv : List ℚ) (vvecs : List (List ℚ))
    (P : LP) (h : LPInv P) (hc : P.c.length = d) (he : evv.length = d)
    (hv : ∀ vv ∈ vvecs, vv.length = d) :
    LPInv (add_optimal_expert_constraints d p evv vvecs P) := by
  obtain ⟨h1, h2, h3⟩ := h
  have hwA : (add_optimal_expert_constraints d p evv vvecs P).A.w
      = P.A.w + vvecs.length := rfl
  refine ⟨?_, ?_, ?_⟩
  · rw [hwA, h1, hc]
    show d + vvecs.length
      = (List.replicate d (0 : ℚ) ++ List.replicate vvecs.length 1).length
    simp
  · intro r hr
    rcases List.mem_append.mp hr with hr | hr
    · rcases List.mem_append.mp hr with hr | hr
      · rw [hwA]
        have := hstackZeros_wf P.A vvecs.length h2 r hr
        simpa [Mat.hstackZeros] using this
      · obtain ⟨q, hq, rfl⟩ := List.mem_map.mp hr
        have hq2 : q.2.length = d := by
          have hmem : q.2 ∈ vvecs :=
            List.getElem?_mem (List.mem_enum_iff_getElem?.mp hq)
          exact hv q.2 hmem
        rw [hwA, h1, hc]
        simp [length_vsub, he, hq2, negIdRow]
    · obtain ⟨q, hq, rfl⟩ := List.mem_map.mp hr
      have hq2 : q.2.length = d := by
        have hmem : q.2 ∈ vvecs :=
          List.getElem?_mem (List.mem_enum_iff_getElem?.mp hq)
        exact hv q.2 hmem
      rw [hwA, h1, hc]
      simp [length_vsub, he, hq2, negIdRow]
  · show (((P.A.hstackZeros vvecs.length).rows ++ _) ++ _).length
      = ((P.b ++ List.replicate vvecs.length (0 : ℚ))
          ++ List.replicate vvecs.length (0 : ℚ)).length
    simp [Mat.hstackZeros, List.enum_length, h3]

/-- Claim C8: every constraint block of the three formulators, applied to
a triple satisfying the LPProblem invariant `columns(A) = len(c)`,
`rows(A) = len(b)` (together with the block's positional precondition —
the true variables occupying the first `n`/`d` columns, exactly as each
block assumes and as every pipeline arranges), returns a triple satisfying
the invariant again, for every parameter shape. -/
theorem C8_invariant_preserved :
    (∀ (n k : ℕ) (T : ℕ → ℕ → ℕ → ℚ) (M : ℕ → ℕ → ℚ) (P : LP),
      LPInv P → P.A.w = n → LPInv (add_optimal_policy_constraints n k T M P))
    ∧ (∀ (n k : ℕ) (T : ℕ → ℕ → ℕ → ℚ) (M : ℕ → ℕ → ℚ) (P : LP),
      LPInv P → n ≤ P.c.length →
        LPInv (add_costly_single_step_constraints n k T M P))
    ∧ (∀ (n : ℕ) (rmax : ℚ) (P : LP),
      LPInv P → n ≤ P.c.length → LPInv (add_rmax_constraints n rmax P))
    ∧ (∀ (n : ℕ) (l1 : ℚ) (P : LP),
      LPInv P → n ≤ P.c.length → LPInv (add_l1norm_constraints n l1 P))
    ∧ (∀ (St : Type) (sample : List St) (k nts nbf : ℕ) (bvf : St → List ℚ)
        (otf : ℕ → St → ℕ → St) (pc : ℚ) (P : LP),
      LPInv P → P.c.length = nbf →
        LPInv (llp_add_css sample k nts nbf bvf otf pc P))
    ∧ (∀ (q : ℕ) (P : LP),
      LPInv P → q ≤ P.c.length → LPInv (add_alpha_size_constraints q P))
    ∧ (∀ (d : ℕ) (p : ℚ) (evv : List ℚ) (vvecs : List (List ℚ)) (P : LP),
      LPInv P → P.c.length = d → evv.length = d →
        (∀ vv ∈ vvecs, vv.length = d) →
        LPInv (add_optimal_expert_constraints d p evv vvecs P)) :=
  ⟨fun n k T M P h hw => inv_aopc n k T M P h hw,
   fun n k T M P h hn => inv_css n k T M P h hn,
   fun n rmax P h _ => inv_rmax n rmax P h,
   fun n l1 P h _ => inv_l1 n l1 P h,
   fun _ sample k nts nbf bvf otf pc P h hc =>
     inv_llpcss sample k nts nbf bvf otf pc P h hc,
   fun q P h _ => inv_alpha q P h,
   fun d p evv vvecs P h hc he hv => inv_expert d p evv vvecs P h hc he hv⟩

/-- Witness for `C8_invariant_preserved`: all seven blocks applied to
small concrete invariant-satisfying triples yield invariant-satisfying
triples. -/
theorem C8_witness :
    LPInv (add_optimal_policy_constraints 3 2 exT exM exP3)
    ∧ LPInv (add_costly_single_step_constraints 3 2 exT exM exP3)
    ∧ LPInv (add_rmax_constraints 3 1 exP3)
    ∧ LPInv (add_l1norm_constraints 3 1 exP3)
    ∧ LPInv (llp_add_css c7sample 2 1 1 c7bvf c7otf 2 exP1)
    ∧ LPInv (add_alpha_size_constraints 1 exP1)
    ∧ LPInv (add_optimal_expert_constraints 1 2 [0] [[0]] exP1) :=
  ⟨C8_invariant_preserved.1 3 2 exT exM exP3 (by decide) rfl,
   C8_invariant_preserved.2.1 3 2 exT exM exP3 (by decide) (by decide),
   C8_invariant_preserved.2.2.1 3 1 exP3 (by decide) (by decide),
   C8_invariant_preserved.2.2.2.1 3 1 exP3 (by decide) (by decide),
   C8_invariant_preserved.2.2.2.2.1 ℕ c7sample 2 1 1 c7bvf c7otf 2 exP1
     (by decide) rfl,
   C8_invariant_preserved.2.2.2.2.2.1 1 exP1 (by decide) (by decide),
   C8_invariant_preserved.2.2.2.2.2.2 1 2 [0] [[0]] exP1 (by decide) rfl rfl
     (by decide)⟩

end IrlLp
